import Mathlib

/-!
Verification of the CyberForensics-Arena validation service and virtual
filesystem (VFS) manager.

The definitions below are a shallow embedding of the JavaScript source:

* the validation service (`parseCommandArgs`, `validateAnswer`,
  `calculateScore`);
* the VFS manager (`mountContent`, `getVFS`, `updateVFS`, `resolvePath`,
  `normalizePath`, `getNode`).

JavaScript strings are modelled as Lean `String` / `List Char`; JS string
built-ins that the source calls (`split`, `join`, `trim`, `toLowerCase`,
`startsWith`, one-shot regex replace of a trailing slash) are embedded as
explicit recursive functions.  Fields that the source reads with JS
truthiness checks are modelled as `Option` values together with explicit
truthiness predicates.
-/

/-! ## JS string primitives -/

/-- The single-quote character (spelled via its code point). -/
def squote : Char := Char.ofNat 39

/-- Worker for `jsSplit`: JS `String.prototype.split` with a one-character
separator, accumulating the current (unfinished) field. -/
def jsSplitA (sep : Char) : List Char → List Char → List (List Char)
  | [], acc => [acc]
  | c :: cs, acc =>
    if c = sep then acc :: jsSplitA sep cs []
    else jsSplitA sep cs (acc ++ [c])

/-- JS `s.split(sep)` for a single-character separator: keeps empty fields,
`""` splits to `[""]`. -/
def jsSplit (sep : Char) (l : List Char) : List (List Char) :=
  jsSplitA sep l []

/-- JS `Array.prototype.join` with a one-character separator. -/
def jsJoin (sep : Char) : List (List Char) → List Char
  | [] => []
  | [x] => x
  | x :: y :: xs => x ++ sep :: jsJoin sep (y :: xs)

/-- JS whitespace test used by `String.prototype.trim` (the ASCII whitespace
characters plus NBSP; more exotic Unicode spaces are not modelled). -/
def jsWhitespace (c : Char) : Bool :=
  c = ' ' || c = '\t' || c = '\n' || c = '\r' ||
  c = Char.ofNat 11 || c = Char.ofNat 12 || c = Char.ofNat 160

/-- JS `s.trim()`: drop leading and trailing whitespace. -/
def jsTrim (l : List Char) : List Char :=
  ((l.dropWhile jsWhitespace).reverse.dropWhile jsWhitespace).reverse

/-- JS `s.toLowerCase()` on one character (ASCII range; the flags compared by
the validator are ASCII). -/
def jsToLower (c : Char) : Char :=
  if 'A' ≤ c ∧ c ≤ 'Z' then Char.ofNat (c.toNat + 32) else c

/-- `answer.trim().toLowerCase()` as used by the flag branch of
`validateAnswer`. -/
def jsNormFlag (s : String) : String :=
  ⟨(jsTrim s.data).map jsToLower⟩

/-- JS `s.startsWith(pre)`. -/
def jsBeginsWith (s pre : List Char) : Bool :=
  s.take pre.length = pre

/-- JS `arg.replace(/\/$/, '')`: strip a single trailing slash if present. -/
def stripTrailSlash (s : String) : String :=
  match s.data.getLast? with
  | some c => if c = '/' then ⟨s.data.dropLast⟩ else s
  | none => s

/-! ## PathResolver (`normalizePath`, `resolvePath` from the VFS manager) -/

/-- The path segment `"."` as a character list. -/
def dotSeg : List Char := ['.']

/-- The path segment `".."` as a character list. -/
def dotdotSeg : List Char := ['.', '.']

/-- The segment-stack loop of `normalizePath`:
`if (seg === '..') stack.pop(); else if (seg !== '.') stack.push(seg);`
(`pop` on an empty stack is a no-op, as in JS). -/
def normFold : List (List Char) → List (List Char) → List (List Char)
  | st, [] => st
  | st, seg :: segs =>
    normFold
      (if seg = dotdotSeg then st.dropLast
       else if seg = dotSeg then st
       else st ++ [seg])
      segs

/-- `normalizePath(path)` from the VFS manager: split on `/`, drop empty
segments (`filter(Boolean)`), process `.` and `..`, reassemble as
`'/' + stack.join('/')`. -/
def normalizePath (path : String) : String :=
  let parts := (jsSplit '/' path.data).filter (fun s => s ≠ [])
  ⟨'/' :: jsJoin '/' (normFold [] parts)⟩

/-- The segment loop of `resolvePath`:
`if (seg === '..') parts.pop(); else if (seg && seg !== '.') parts.push(seg);`. -/
def resFold : List (List Char) → List (List Char) → List (List Char)
  | st, [] => st
  | st, seg :: segs =>
    resFold
      (if seg = dotdotSeg then st.dropLast
       else if seg ≠ [] ∧ seg ≠ dotSeg then st ++ [seg]
       else st)
      segs

/-- `resolvePath(path, cwd)` from the VFS manager: absolute paths are
normalized ignoring `cwd`; relative paths are applied segment by segment to
the segments of `cwd` (which are filtered for emptiness only — the source
does not process `.`/`..` already sitting inside `cwd`). -/
def resolvePath (path cwd : String) : String :=
  if path.data.take 1 = ['/'] then normalizePath path
  else
    let parts := (jsSplit '/' cwd.data).filter (fun s => s ≠ [])
    let segs := jsSplit '/' path.data
    ⟨'/' :: jsJoin '/' (resFold parts segs)⟩

/-! ## CommandTokenizer (`parseCommandArgs`) -/

/-- Is `c` one of the two JS quote characters recognised by the tokenizer? -/
def isQuoteCh (c : Char) : Bool :=
  c = '"' || c = squote

/-- The character loop of `parseCommandArgs`.  State: remaining input,
current token accumulator, the currently open quote (`none` when
`inQuote === false`).  End of input flushes a non-empty accumulator. -/
def parseAux : List Char → List Char → Option Char → List (List Char)
  | [], current, _ => if current ≠ [] then [current] else []
  | c :: rest, current, q =>
    if isQuoteCh c = true ∧ (q = none ∨ q = some c) then
      match q with
      | some _ => parseAux rest current none
      | none => parseAux rest current (some c)
    else if c = ' ' ∧ q = none then
      if current ≠ [] then current :: parseAux rest [] none
      else parseAux rest [] none
    else parseAux rest (current ++ [c]) q

/-- `parseCommandArgs(input)` from the validation service. -/
def parseCommandArgs (input : String) : List String :=
  (parseAux input.data [] none).map (fun l => (⟨l⟩ : String))

/-! ## AnswerValidator and ScoreCalculator -/

/-- A task definition as read by the validator (all fields the source
accesses; absent JS properties are `none`). -/
structure TaskDef where
  checkType : Option String
  interactionTarget : Option String
  solutionValue : Option String
  checkCommand : Option String
  checkArgs : Option (List String)
  points : Option Int

/-- The verdict object `{ correct: boolean }`. -/
structure Verdict where
  correct : Bool

/-- JS truthiness of an optional string property (absent, or the empty
string, is falsy). -/
def truthyS (o : Option String) : Bool :=
  o.getD "" ≠ ""

/-- JS truthiness of `task.checkArgs && task.checkArgs.length > 0`
(absent is falsy; a present empty array fails the length test). -/
def truthyArgs (o : Option (List String)) : Bool :=
  !(o.getD []).isEmpty

/-- The positional comparison loop of the command branch:
`for (i...) if (normalizedArgs[i] !== normalizedExpected[i]) return false;
return true;` (indexing past the end yields `undefined`, which compares
unequal to every string). -/
def eqFrom : List String → List String → Bool
  | [], _ => true
  | x :: xs, y :: ys => if x ≠ y then false else eqFrom xs ys
  | _ :: _, [] => false

/-- `validateAnswer(task, answer)` from the validation service. -/
def validateAnswer (task : TaskDef) (answer : String) : Verdict :=
  if task.checkType = some "interaction" ∧ truthyS task.interactionTarget = true then
    if jsBeginsWith answer.data ("interaction:".data) = true then
      if (⟨answer.data.drop ("interaction:".data.length)⟩ : String)
          = task.interactionTarget.getD "" then ⟨true⟩
      else ⟨false⟩
    else ⟨false⟩
  else if task.checkType = some "flag" ∧ truthyS task.solutionValue = true then
    ⟨decide (jsNormFlag answer = jsNormFlag (task.solutionValue.getD ""))⟩
  else if truthyS task.checkCommand = true then
    match parseCommandArgs answer with
    | [] => ⟨false⟩
    | c0 :: args =>
      if c0 ≠ task.checkCommand.getD "" then ⟨false⟩
      else if truthyArgs task.checkArgs = true then
        let na := args.map stripTrailSlash
        let ne := (task.checkArgs.getD []).map stripTrailSlash
        if na.length ≠ ne.length then ⟨false⟩
        else ⟨eqFrom na ne⟩
      else if args.length > 0 then ⟨false⟩
      else ⟨true⟩
  else ⟨false⟩

/-- JS `task.points || 0` (a missing or zero points field yields 0). -/
def jsOrZero (o : Option Int) : Int :=
  match o with
  | none => 0
  | some v => if v = 0 then 0 else v

/-- `calculateScore(task, isCorrect, wrongAttempts)` from the validation
service. -/
def calculateScore (task : TaskDef) (isCorrect : Bool) (_wrongAttempts : Nat) : Int :=
  if !isCorrect then 0 else jsOrZero task.points

/-! ## VfsTree (`mountContent`, `getNode` from the VFS manager) -/

/-- A VFS node as the source builds it: a JS object with a `type` tag
(`"dir"` or `"file"`), an optional `children` map (a JS object, modelled as
an association list in insertion order) and an optional `content` string.
The source is duck-typed, so every field is optional here. -/
inductive Node where
  | mk (ty : String) (children : Option (List (String × Node)))
      (content : Option String)

/-- The `type` tag of a node. -/
def Node.ty : Node → String
  | Node.mk t _ _ => t

/-- The `children` property of a node. -/
def Node.children : Node → Option (List (String × Node))
  | Node.mk _ c _ => c

/-- The `content` property of a node. -/
def Node.content : Node → Option String
  | Node.mk _ _ co => co

/-- A fresh file node `{ type: 'file', content: data }` (the source
serializes non-string content with `JSON.stringify` first; file bodies are
therefore always text and are modelled as the final string). -/
def fileNode (data : String) : Node :=
  Node.mk "file" none (some data)

/-- A fresh directory node `{ type: 'dir', children: {} }`. -/
def emptyDir : Node :=
  Node.mk "dir" (some []) none

/-- JS property read `children[name]` on a children map. -/
def lookupChild : List (String × Node) → String → Option Node
  | [], _ => none
  | (n, nd) :: rest, name =>
    if n = name then some nd else lookupChild rest name

/-- JS property write `children[name] = nd`: replace in place if the key
exists, otherwise append (JS object insertion order). -/
def childSet : List (String × Node) → String → Node → List (String × Node)
  | [], name, nd => [(name, nd)]
  | (n, nd0) :: rest, name, nd =>
    if n = name then (n, nd) :: rest
    else (n, nd0) :: childSet rest name nd

/-- `mountPath.split('/').filter(Boolean)` as a list of segment strings. -/
def jsSegsStr (s : String) : List String :=
  ((jsSplit '/' s.data).filter (fun l => l ≠ [])).map (fun l => (⟨l⟩ : String))

/-- The file-insertion epilogue of `mountContent`:
`if (content && current.children) for (const [name, data] of entries)
current.children[name] = { type:'file', content: ... }`.
A node that reached this point without a `children` map is left unchanged
(the JS guard skips the loop). -/
def addFiles (n : Node) (content : List (String × String)) : Node :=
  match n with
  | Node.mk ty none co => Node.mk ty none co
  | Node.mk ty (some cs) co =>
    Node.mk ty
      (some (content.foldl (fun acc kv => childSet acc kv.1 (fileNode kv.2)) cs))
      co

/-- The directory-creation walk of `mountContent` over the split mount path:
`if (!current.children) current.children = {};
 if (!current.children[part]) current.children[part] = { type:'dir', children:{} };
 current = current.children[part];`
followed by `addFiles` at the final node.  JS mutation through the shared
reference is rendered functionally by `childSet` on the way back up. -/
def mountParts : List String → Node → List (String × String) → Node
  | [], n, content => addFiles n content
  | part :: rest, Node.mk ty och co, content =>
    let cs := och.getD []
    let child :=
      match lookupChild cs part with
      | some ch => ch
      | none => emptyDir
    Node.mk ty (some (childSet cs part (mountParts rest child content))) co

/-- `mountContent(vfs, mountPath, content)` from the VFS manager. -/
def mountContent (vfs : Node) (mountPath : String)
    (content : List (String × String)) : Node :=
  mountParts (jsSegsStr mountPath) vfs content

/-- The child-walk of `getNode` over already-split path segments:
`if (!node.children || !node.children[part]) return null;
 node = node.children[part];`. -/
def getNodeParts : List String → Node → Option Node
  | [], n => some n
  | part :: rest, Node.mk _ och _ =>
    match och with
    | none => none
    | some cs =>
      match lookupChild cs part with
      | none => none
      | some ch => getNodeParts rest ch

/-- `getNode(vfs, path)` from the VFS manager: normalize the path, return
the root for `"/"`, otherwise walk the split segments. -/
def getNode (vfs : Node) (path : String) : Option Node :=
  let p := normalizePath path
  if p = "/" then some vfs
  else getNodeParts (jsSegsStr p) vfs

/-! ## VfsStore (`getVFS`, `updateVFS` from the VFS manager)

The persistence collaborator (sqlite table `user_vfs_state`) is modelled as
an association list of rows keyed by `(user_id, scenario_code)`.  The source
stores `JSON.stringify(vfs)` in the `vfs_data` column and parses it back on
read; the stringify/parse round trip is modelled as the identity, so a row
holds the tree itself. -/

/-- One row of `user_vfs_state`. -/
structure VfsRow where
  cwd : String
  tree : Node

/-- The database state relevant to the VFS manager. -/
structure DbState where
  rows : List ((Nat × String) × VfsRow)

/-- `SELECT ... WHERE user_id = ? AND scenario_code = ?`. -/
def rowsLookup : List ((Nat × String) × VfsRow) → Nat × String → Option VfsRow
  | [], _ => none
  | (k, r) :: rest, key => if k = key then some r else rowsLookup rest key

/-- Row-by-row effect of
`UPDATE user_vfs_state SET cwd = ? WHERE user_id = ? AND scenario_code = ?`
(matching rows only; no row is created). -/
def setRowsCwd : List ((Nat × String) × VfsRow) → Nat × String → String →
    List ((Nat × String) × VfsRow)
  | [], _, _ => []
  | (k, r) :: rest, key, c =>
    (if k = key then (k, ⟨c, r.tree⟩) else (k, r)) :: setRowsCwd rest key c

/-- Row-by-row effect of `UPDATE user_vfs_state SET vfs_data = ? WHERE ...`
(matching rows only). -/
def setRowsTree : List ((Nat × String) × VfsRow) → Nat × String → Node →
    List ((Nat × String) × VfsRow)
  | [], _, _ => []
  | (k, r) :: rest, key, t =>
    (if k = key then (k, ⟨r.cwd, t⟩) else (k, r)) :: setRowsTree rest key t

/-- The cwd-column `UPDATE` on the database state. -/
def dbSetCwd (st : DbState) (key : Nat × String) (c : String) : DbState :=
  ⟨setRowsCwd st.rows key c⟩

/-- The vfs-data-column `UPDATE` on the database state. -/
def dbSetTree (st : DbState) (key : Nat × String) (t : Node) : DbState :=
  ⟨setRowsTree st.rows key t⟩

/-- `INSERT INTO user_vfs_state ... VALUES (...)`. -/
def dbInsertRow (st : DbState) (key : Nat × String) (r : VfsRow) : DbState :=
  ⟨st.rows ++ [(key, r)]⟩

/-- The default VFS skeleton built by `initializeVFS`. -/
def defaultVfs : Node :=
  Node.mk "dir"
    (some
      [("home", Node.mk "dir"
          (some
            [("user", Node.mk "dir"
                (some
                  [("README.txt",
                    fileNode
                      "Welcome to the Forensic Shell.\nExplore the file system and complete the tasks.")])
                none)])
          none),
       ("evidence", emptyDir),
       ("captures", emptyDir),
       ("memory", emptyDir),
       ("mnt", emptyDir),
       ("tmp", emptyDir),
       ("var", Node.mk "dir" (some [("log", emptyDir)]) none)])
    none

/-- `initializeVFS(userId, scenarioCode)`: return the stored tree if the row
exists, otherwise insert the default row (cwd `/home/user`) and return the
default tree. -/
def initializeVFS (st : DbState) (key : Nat × String) : Node × DbState :=
  match rowsLookup st.rows key with
  | some row => (row.tree, st)
  | none => (defaultVfs, dbInsertRow st key ⟨"/home/user", defaultVfs⟩)

/-- `getVFS(userId, scenarioCode)`: read the row, initializing it first when
absent; returns `{ vfs, cwd }` together with the (possibly extended)
database state. -/
def getVFS (st : DbState) (userId : Nat) (scenarioCode : String) :
    (Node × String) × DbState :=
  match rowsLookup st.rows (userId, scenarioCode) with
  | some row => ((row.tree, row.cwd), st)
  | none =>
    let st2 := (initializeVFS st (userId, scenarioCode)).2
    match rowsLookup st2.rows (userId, scenarioCode) with
    | some row => ((row.tree, row.cwd), st2)
    | none => ((defaultVfs, "/home/user"), st2)

/-- `updateVFS(userId, scenarioCode, updates)`: the `cwd` column is updated
first when supplied, then the `vfs_data` column when supplied; an omitted
field issues no write at all. -/
def updateVFS (st : DbState) (userId : Nat) (scenarioCode : String)
    (cwdU : Option String) (treeU : Option Node) : DbState :=
  let st1 :=
    match cwdU with
    | some c => dbSetCwd st (userId, scenarioCode) c
    | none => st
  match treeU with
  | some t => dbSetTree st1 (userId, scenarioCode) t
  | none => st1

/-- Does the node sitting at the given segment path (if any) carry a
`children` map?  This is the guard under which the final file-insertion of
`mountContent` actually runs. -/
def childrenOkAt (pp : List String) (t : Node) : Bool :=
  match getNodeParts pp t with
  | none => true
  | some n => n.children.isSome

/-! ## Statement-level predicates and concrete fixtures -/

/-- A well-formed path-stack segment: non-empty, not `"."`, not `".."`, and
slash-free.  The reassembled output of the path resolver is made of such
segments. -/
def goodSeg (s : List Char) : Prop :=
  s ≠ [] ∧ s ≠ dotSeg ∧ s ≠ dotdotSeg ∧ '/' ∉ s

/-- The (non-empty) `/`-separated segments of `s` contain no `".."` and no
`"."` — the output condition claimed for the path resolver, and the input
condition on a current working directory that the resolver copies
verbatim. -/
def noDotSegs (s : String) : Prop :=
  ∀ seg ∈ (jsSplit '/' s.data).filter (fun l => l ≠ []), seg ≠ dotSeg ∧ seg ≠ dotdotSeg

instance (s : String) : Decidable (noDotSegs s) :=
  inferInstanceAs (Decidable (∀ seg ∈ (jsSplit '/' s.data).filter (fun l => decide (l ≠ [])),
    seg ≠ dotSeg ∧ seg ≠ dotdotSeg))

/-- A task with no recognised check shape at all. -/
def emptyTask : TaskDef :=
  ⟨none, none, none, none, none, none⟩

/-- The command task of the trailing-slash example:
`{checkCommand:"mount", checkArgs:["/mnt/evidence"]}`. -/
def mountTask : TaskDef :=
  ⟨none, none, none, some "mount", some ["/mnt/evidence"], none⟩

/-- The flag task of the case-insensitivity example:
`{checkType:"flag", solutionValue:"FLAG{abc}"}`. -/
def flagTask : TaskDef :=
  ⟨some "flag", none, some "FLAG\x7babc\x7d", none, none, none⟩

/-- A task worth 50 points. -/
def pointsTask : TaskDef :=
  ⟨none, none, none, none, none, some 50⟩

/-- A tree whose mount path is blocked by a childless file node. -/
def fileBlockTree : Node :=
  Node.mk "dir" (some [("a", fileNode "x")]) none

/-- A small tree with an existing `mnt` directory and an unrelated sibling
file. -/
def mountDemoTree : Node :=
  Node.mk "dir" (some [("mnt", emptyDir), ("keep.txt", fileNode "k")]) none

/-- A database holding one initialized VFS row. -/
def demoDb : DbState :=
  ⟨[((1, "case01"), ⟨"/home/user", defaultVfs⟩)]⟩

/-! ## Theorems -/

/-- **C9.** `calculateScore` returns 0 on an incorrect verdict; on a correct
verdict it returns `task.points` (JS `|| 0` default) independently of the
wrong-attempt count; in particular a 50-point task scores 50 after 7 wrong
attempts. -/
theorem claim_C9_flat_score :
    (∀ (t : TaskDef) (w : Nat), calculateScore t false w = 0)
    ∧ (∀ (t : TaskDef) (w w2 : Nat), calculateScore t true w = calculateScore t true w2)
    ∧ (∀ (t : TaskDef) (w : Nat), calculateScore t true w = jsOrZero t.points)
    ∧ calculateScore pointsTask true 7 = 50 :=
  ⟨fun _ _ => rfl, fun _ _ _ => rfl, fun _ _ => rfl, rfl⟩

/-- **C10.** For every tree and every path whose normalized form is `/`,
`getNode` returns the root node itself: lookups that traverse above the root
are clamped to the root and never come back absent. -/
theorem claim_C10_root_clamp (vfs : Node) (path : String)
    (h : normalizePath path = "/") : getNode vfs path = some vfs := by
  simp [getNode, h]

/-- Witness for C10 at the concrete paths `/`, `//`, `/..`, `/../..` and
`/.`. -/
theorem claim_C10_root_clamp_witness :
    getNode defaultVfs "/" = some defaultVfs
    ∧ getNode defaultVfs "//" = some defaultVfs
    ∧ getNode defaultVfs "/.." = some defaultVfs
    ∧ getNode defaultVfs "/../.." = some defaultVfs
    ∧ getNode defaultVfs "/." = some defaultVfs :=
  ⟨claim_C10_root_clamp _ _ (by decide), claim_C10_root_clamp _ _ (by decide),
   claim_C10_root_clamp _ _ (by decide), claim_C10_root_clamp _ _ (by decide),
   claim_C10_root_clamp _ _ (by decide)⟩

/-- **C6.** A task matching none of the three validation branches yields
`{correct:false}` for every answer string; the validator (like the
tokenizer) is a total function, so no input can make it throw. -/
theorem claim_C6_fail_closed (task : TaskDef)
    (hni : ¬ (task.checkType = some "interaction" ∧ truthyS task.interactionTarget = true))
    (hnf : ¬ (task.checkType = some "flag" ∧ truthyS task.solutionValue = true))
    (hnc : ¬ (truthyS task.checkCommand = true)) :
    ∀ answer : String, validateAnswer task answer = ⟨false⟩ := by
  intro a
  simp only [validateAnswer]
  rw [if_neg hni, if_neg hnf, if_neg hnc]

/-- Witness for C6 on a task with no check fields at all. -/
theorem claim_C6_fail_closed_witness :
    validateAnswer emptyTask "anything at all" = ⟨false⟩ :=
  claim_C6_fail_closed emptyTask (by decide) (by decide) (by decide) "anything at all"

/-- **C7.** For a flag task with a set (non-empty) solution value, the
verdict is correct exactly when answer and solution agree after trimming and
lower-casing both sides. -/
theorem claim_C7_flag_normalized (task : TaskDef) (sol : String) (answer : String)
    (hct : task.checkType = some "flag") (hsol : task.solutionValue = some sol)
    (hne : sol ≠ "") :
    ((validateAnswer task answer).correct = true ↔ jsNormFlag answer = jsNormFlag sol) := by
  have h1 : ¬ (task.checkType = some "interaction" ∧ truthyS task.interactionTarget = true) := by
    rintro ⟨h, -⟩
    rw [hct] at h
    exact absurd (Option.some.inj h) (by decide)
  have h2 : truthyS task.solutionValue = true := by
    rw [hsol]
    simpa [truthyS] using hne
  simp only [validateAnswer]
  rw [if_neg h1, if_pos ⟨hct, h2⟩, hsol]
  simp

/-- Witness for C7: `validate({checkType:"flag", solutionValue:"FLAG{abc}"},
"  flag{ABC}  ")` is correct. -/
theorem claim_C7_flag_normalized_witness :
    (validateAnswer flagTask "  flag\x7bABC\x7d  ").correct = true :=
  (claim_C7_flag_normalized flagTask "FLAG\x7babc\x7d" "  flag\x7bABC\x7d  "
    rfl rfl (by decide)).mpr (by decide)

/-- Looking a key up after the cwd-column `UPDATE` yields the old row with
its cwd replaced (and `none` stays `none`: the `UPDATE` creates no row). -/
theorem rowsLookup_setCwd (rows : List ((Nat × String) × VfsRow))
    (key : Nat × String) (c : String) :
    rowsLookup (setRowsCwd rows key c) key
      = (rowsLookup rows key).map (fun r => ⟨c, r.tree⟩) := by
  induction rows with
  | nil => rfl
  | cons e rest ih =>
    obtain ⟨k, r⟩ := e
    by_cases hk : k = key
    · subst hk
      have h1 : setRowsCwd ((k, r) :: rest) k c
          = (k, (⟨c, r.tree⟩ : VfsRow)) :: setRowsCwd rest k c := by
        simp [setRowsCwd]
      have h2 : rowsLookup ((k, (⟨c, r.tree⟩ : VfsRow)) :: setRowsCwd rest k c) k
          = some ⟨c, r.tree⟩ := by
        simp [rowsLookup]
      have h3 : rowsLookup ((k, r) :: rest) k = some r := by
        simp [rowsLookup]
      rw [h1, h2, h3]
      rfl
    · have h1 : setRowsCwd ((k, r) :: rest) key c
          = (k, r) :: setRowsCwd rest key c := by
        simp [setRowsCwd, hk]
      have h2 : rowsLookup ((k, r) :: setRowsCwd rest key c) key
          = rowsLookup (setRowsCwd rest key c) key := by
        simp [rowsLookup, hk]
      have h3 : rowsLookup ((k, r) :: rest) key = rowsLookup rest key := by
        simp [rowsLookup, hk]
      rw [h1, h2, h3, ih]

/-- Looking a key up after the vfs-data-column `UPDATE` yields the old row
with its tree replaced. -/
theorem rowsLookup_setTree (rows : List ((Nat × String) × VfsRow))
    (key : Nat × String) (t : Node) :
    rowsLookup (setRowsTree rows key t) key
      = (rowsLookup rows key).map (fun r => ⟨r.cwd, t⟩) := by
  induction rows with
  | nil => rfl
  | cons e rest ih =>
    obtain ⟨k, r⟩ := e
    by_cases hk : k = key
    · subst hk
      have h1 : setRowsTree ((k, r) :: rest) k t
          = (k, (⟨r.cwd, t⟩ : VfsRow)) :: setRowsTree rest k t := by
        simp [setRowsTree]
      have h2 : rowsLookup ((k, (⟨r.cwd, t⟩ : VfsRow)) :: setRowsTree rest k t) k
          = some ⟨r.cwd, t⟩ := by
        simp [rowsLookup]
      have h3 : rowsLookup ((k, r) :: rest) k = some r := by
        simp [rowsLookup]
      rw [h1, h2, h3]
      rfl
    · have h1 : setRowsTree ((k, r) :: rest) key t
          = (k, r) :: setRowsTree rest key t := by
        simp [setRowsTree, hk]
      have h2 : rowsLookup ((k, r) :: setRowsTree rest key t) key
          = rowsLookup (setRowsTree rest key t) key := by
        simp [rowsLookup, hk]
      have h3 : rowsLookup ((k, r) :: rest) key = rowsLookup rest key := by
        simp [rowsLookup, hk]
      rw [h1, h2, h3, ih]

/-- **C3.** Once `updateVFS` has been applied to an existing
`(userId, scenarioCode)` row, every subsequent `getVFS` observes the update
as one logical write: supplying both fields makes the read return exactly
the new tree with the new cwd (never a new tree with the stale cwd, nor the
new cwd with the stale tree), and an omitted field is left untouched. -/
theorem claim_C3_atomic_update (st : DbState) (uid : Nat) (sc : String)
    (c0 : String) (t0 : Node)
    (h : rowsLookup st.rows (uid, sc) = some ⟨c0, t0⟩) :
    (∀ c t, (getVFS (updateVFS st uid sc (some c) (some t)) uid sc).1 = (t, c))
    ∧ (∀ t, (getVFS (updateVFS st uid sc none (some t)) uid sc).1 = (t, c0))
    ∧ (∀ c, (getVFS (updateVFS st uid sc (some c) none) uid sc).1 = (t0, c))
    ∧ (getVFS (updateVFS st uid sc none none) uid sc).1 = (t0, c0) := by
  refine ⟨fun c t => ?_, fun t => ?_, fun c => ?_, ?_⟩
  · have hl : rowsLookup (updateVFS st uid sc (some c) (some t)).rows (uid, sc)
        = some ⟨c, t⟩ := by
      simp [updateVFS, dbSetCwd, dbSetTree, rowsLookup_setTree, rowsLookup_setCwd, h]
    simp [getVFS, hl]
  · have hl : rowsLookup (updateVFS st uid sc none (some t)).rows (uid, sc)
        = some ⟨c0, t⟩ := by
      simp [updateVFS, dbSetTree, rowsLookup_setTree, h]
    simp [getVFS, hl]
  · have hl : rowsLookup (updateVFS st uid sc (some c) none).rows (uid, sc)
        = some ⟨c, t0⟩ := by
      simp [updateVFS, dbSetCwd, rowsLookup_setCwd, h]
    simp [getVFS, hl]
  · simp [getVFS, updateVFS, h]

/-- Witness for C3 on a one-row database. -/
theorem claim_C3_atomic_update_witness :
    (getVFS (updateVFS demoDb 1 "case01" (some "/mnt") (some mountDemoTree)) 1 "case01").1
      = (mountDemoTree, "/mnt") :=
  (claim_C3_atomic_update demoDb 1 "case01" "/home/user" defaultVfs rfl).1 "/mnt" mountDemoTree

/-- **C5.** `parseCommandArgs` is the single left-to-right quote-aware scan:
an unquoted quote opens quote mode, a quote matching the open quote closes
it, a quote inside a different quote mode is appended literally, an unquoted
space flushes the (non-empty) current token so consecutive spaces collapse,
every other character is appended; the empty string tokenizes to `[]` and
`mount "My Disk" /mnt` to `["mount", "My Disk", "/mnt"]`. -/
theorem claim_C5_tokenizer :
    parseCommandArgs "" = []
    ∧ parseCommandArgs "mount \"My Disk\" /mnt" = ["mount", "My Disk", "/mnt"]
    ∧ (∀ (rest cur : List Char) (c : Char), isQuoteCh c = true →
        parseAux (c :: rest) cur none = parseAux rest cur (some c))
    ∧ (∀ (rest cur : List Char) (c : Char), isQuoteCh c = true →
        parseAux (c :: rest) cur (some c) = parseAux rest cur none)
    ∧ (∀ (rest cur : List Char) (c qc : Char), isQuoteCh c = true → qc ≠ c →
        parseAux (c :: rest) cur (some qc) = parseAux rest (cur ++ [c]) (some qc))
    ∧ (∀ (rest cur : List Char),
        parseAux (' ' :: rest) cur none
          = if cur ≠ [] then cur :: parseAux rest [] none else parseAux rest [] none)
    ∧ (∀ (rest cur : List Char) (c : Char) (q : Option Char),
        isQuoteCh c = false → ¬ (c = ' ' ∧ q = none) →
        parseAux (c :: rest) cur q = parseAux rest (cur ++ [c]) q) := by
  refine ⟨by decide, by decide, ?_, ?_, ?_, ?_, ?_⟩
  · intro rest cur c hq
    simp only [parseAux]
    rw [if_pos ⟨hq, Or.inl trivial⟩]
  · intro rest cur c hq
    simp only [parseAux]
    rw [if_pos ⟨hq, Or.inr trivial⟩]
  · intro rest cur c qc hq hne
    have hcon : ¬ (isQuoteCh c = true ∧ ((some qc : Option Char) = none ∨ some qc = some c)) := by
      rintro ⟨-, h | h⟩
      · exact Option.noConfusion h
      · exact hne (Option.some.inj h)
    have hsp : ¬ (c = ' ' ∧ (some qc : Option Char) = none) := by
      rintro ⟨-, h⟩
      exact Option.noConfusion h
    simp only [parseAux]
    rw [if_neg hcon, if_neg hsp]
  · intro rest cur
    simp only [parseAux]
    rw [if_neg (show ¬ (isQuoteCh ' ' = true ∧ (True ∨ (none : Option Char) = some ' ')) from by decide)]
    rw [if_pos (show True ∧ True from ⟨trivial, trivial⟩)]
  · intro rest cur c q hq hcsp
    have hcon : ¬ (isQuoteCh c = true ∧ (q = none ∨ q = some c)) := by
      rintro ⟨h, -⟩
      rw [hq] at h
      exact Bool.noConfusion h
    simp only [parseAux]
    rw [if_neg hcon, if_neg hcsp]

/-- Witness for C5, instantiating the conditional conjuncts at concrete
characters and the scan at concrete strings. -/
theorem claim_C5_tokenizer_witness :
    parseAux [squote] [] (some '"') = parseAux [] ([] ++ [squote]) (some '"')
    ∧ parseAux ['"'] [] none = parseAux [] [] (some '"')
    ∧ parseAux ['"'] [] (some '"') = parseAux [] [] none
    ∧ parseAux [' '] ['a'] none
        = (if (['a'] : List Char) ≠ [] then ['a'] :: parseAux [] [] none
           else parseAux [] [] none)
    ∧ parseAux ['x'] [] none = parseAux [] ([] ++ ['x']) none :=
  ⟨claim_C5_tokenizer.2.2.2.2.1 [] [] squote '"' (by decide) (by decide),
   claim_C5_tokenizer.2.2.1 [] [] '"' (by decide),
   claim_C5_tokenizer.2.2.2.1 [] [] '"' (by decide),
   claim_C5_tokenizer.2.2.2.2.2.1 [] ['a'],
   claim_C5_tokenizer.2.2.2.2.2.2 [] [] 'x' none (by decide) (by decide)⟩

/-- Fields produced by the split never contain the separator. -/
theorem sep_not_mem_jsSplitA (sep : Char) :
    ∀ (cs acc : List Char), sep ∉ acc → ∀ s ∈ jsSplitA sep cs acc, sep ∉ s := by
  intro cs
  induction cs with
  | nil =>
    intro acc hacc s hs
    simp only [jsSplitA, List.mem_singleton] at hs
    subst hs
    exact hacc
  | cons c cs ih =>
    intro acc hacc s hs
    simp only [jsSplitA] at hs
    by_cases hc : c = sep
    · rw [if_pos hc] at hs
      rcases List.mem_cons.mp hs with h | h
      · subst h
        exact hacc
      · exact ih [] (by simp) s h
    · rw [if_neg hc] at hs
      refine ih (acc ++ [c]) ?_ s hs
      intro hmem
      rcases List.mem_append.mp hmem with h | h
      · exact hacc h
      · exact hc ((List.mem_singleton.mp h).symm)

/-- Fields of `jsSplit` never contain the separator. -/
theorem sep_not_mem_jsSplit (sep : Char) (l : List Char) :
    ∀ s ∈ jsSplit sep l, sep ∉ s :=
  sep_not_mem_jsSplitA sep l [] (by simp)

/-- Splitting skips over a separator-free block, moving it into the
accumulator. -/
theorem jsSplitA_append_no_sep (sep : Char) :
    ∀ (x : List Char), sep ∉ x → ∀ (acc cs : List Char),
      jsSplitA sep (x ++ cs) acc = jsSplitA sep cs (acc ++ x) := by
  intro x
  induction x with
  | nil =>
    intro _ acc cs
    simp
  | cons c x ih =>
    intro hx acc cs
    have hc : ¬ (c = sep) := by
      intro h
      exact hx (by rw [h]; exact List.mem_cons_self _ _)
    simp only [List.cons_append, jsSplitA, List.append_eq]
    rw [if_neg hc, ih (fun h => hx (List.mem_cons_of_mem _ h)) (acc ++ [c]) cs,
      List.append_assoc]
    rfl

/-- Splitting is a left inverse of joining on separator-free fields (the
empty field list joins to the empty string, which splits to one empty
field). -/
theorem jsSplit_jsJoin_round (sep : Char) :
    ∀ ls : List (List Char), (∀ s ∈ ls, sep ∉ s) →
      jsSplit sep (jsJoin sep ls) = if ls = [] then [[]] else ls := by
  intro ls
  induction ls with
  | nil => intro _; rfl
  | cons x ls ih =>
    intro h
    cases ls with
    | nil =>
      simp only [jsJoin, jsSplit]
      rw [show x = x ++ [] from by simp,
        jsSplitA_append_no_sep sep x (by simpa using h x (List.mem_cons_self _ _)) [] []]
      simp [jsSplitA]
    | cons y ls2 =>
      simp only [jsJoin, jsSplit]
      rw [jsSplitA_append_no_sep sep x (h x (List.mem_cons_self _ _)) []
          (sep :: jsJoin sep (y :: ls2))]
      simp only [jsSplitA, if_pos rfl]
      have ih2 := ih (fun s hs => h s (List.mem_cons_of_mem _ hs))
      rw [if_neg (by simp)] at ih2
      rw [← jsSplit, ih2]
      simp

/-- The `normalizePath` segment loop preserves well-formedness of the
stack: starting from a good stack and feeding non-empty slash-free
segments, every remaining stack entry is good. -/
theorem goodSeg_normFold :
    ∀ (segs st : List (List Char)), (∀ s ∈ st, goodSeg s) →
      (∀ s ∈ segs, s ≠ [] ∧ '/' ∉ s) →
      ∀ s ∈ normFold st segs, goodSeg s := by
  intro segs
  induction segs with
  | nil =>
    intro st hst _
    simpa only [normFold] using hst
  | cons seg segs ih =>
    intro st hst hsegs
    simp only [normFold]
    refine ih _ ?_ (fun s hs => hsegs s (List.mem_cons_of_mem _ hs))
    intro x hx
    by_cases h1 : seg = dotdotSeg
    · rw [if_pos h1] at hx
      exact hst x (List.dropLast_subset _ hx)
    · rw [if_neg h1] at hx
      by_cases h2 : seg = dotSeg
      · rw [if_pos h2] at hx
        exact hst x hx
      · rw [if_neg h2] at hx
        rcases List.mem_append.mp hx with h | h
        · exact hst x h
        · have hx2 : x = seg := by simpa using h
          subst hx2
          obtain ⟨hne, hslash⟩ := hsegs x (List.mem_cons_self _ _)
          exact ⟨hne, h2, h1, hslash⟩

/-- The `resolvePath` segment loop preserves well-formedness of the stack
(its push guard already rejects empty and `.` segments, so the segments fed
to it only need to be slash-free). -/
theorem goodSeg_resFold :
    ∀ (segs st : List (List Char)), (∀ s ∈ st, goodSeg s) →
      (∀ s ∈ segs, '/' ∉ s) →
      ∀ s ∈ resFold st segs, goodSeg s := by
  intro segs
  induction segs with
  | nil =>
    intro st hst _
    simpa only [resFold] using hst
  | cons seg segs ih =>
    intro st hst hsegs
    simp only [resFold]
    refine ih _ ?_ (fun s hs => hsegs s (List.mem_cons_of_mem _ hs))
    intro x hx
    by_cases h1 : seg = dotdotSeg
    · rw [if_pos h1] at hx
      exact hst x (List.dropLast_subset _ hx)
    · rw [if_neg h1] at hx
      by_cases h2 : seg ≠ [] ∧ seg ≠ dotSeg
      · rw [if_pos h2] at hx
        rcases List.mem_append.mp hx with h | h
        · exact hst x h
        · have hx2 : x = seg := by simpa using h
          subst hx2
          exact ⟨h2.1, h2.2, h1, hsegs x (List.mem_cons_self _ _)⟩
      · rw [if_neg h2] at hx
        exact hst x hx

/-- Feeding only good segments to the `normalizePath` loop just appends
them. -/
theorem normFold_of_clean :
    ∀ (segs st : List (List Char)), (∀ s ∈ segs, s ≠ dotSeg ∧ s ≠ dotdotSeg) →
      normFold st segs = st ++ segs := by
  intro segs
  induction segs with
  | nil =>
    intro st _
    simp [normFold]
  | cons seg segs ih =>
    intro st h
    obtain ⟨h1, h2⟩ := h seg (List.mem_cons_self _ _)
    simp only [normFold]
    rw [if_neg h2, if_neg h1, ih _ (fun s hs => h s (List.mem_cons_of_mem _ hs)),
      List.append_assoc]
    rfl

/-- Re-splitting the reassembled output `'/' + stack.join('/')` and dropping
empty fields recovers the stack exactly. -/
theorem slashSegs_of_join (stack : List (List Char)) (hg : ∀ s ∈ stack, goodSeg s) :
    (jsSplit '/' ('/' :: jsJoin '/' stack)).filter (fun s => s ≠ []) = stack := by
  have h0 : jsSplit '/' ('/' :: jsJoin '/' stack)
      = [] :: jsSplit '/' (jsJoin '/' stack) := rfl
  rw [h0]
  by_cases hs : stack = []
  · subst hs
    rfl
  · rw [jsSplit_jsJoin_round '/' stack (fun s hs' => (hg s hs').2.2.2), if_neg hs]
    rw [show (([] : List Char) :: stack).filter (fun s => s ≠ [])
        = stack.filter (fun s => s ≠ []) from by simp]
    exact List.filter_eq_self.mpr (fun a ha => by simpa using (hg a ha).1)

/-- The reassembled string `'/' + stack.join('/')` has no `.` or `..`
segment when the stack is good. -/
theorem noDotSegs_of_good (stack : List (List Char)) (hg : ∀ s ∈ stack, goodSeg s) :
    noDotSegs ⟨'/' :: jsJoin '/' stack⟩ := by
  intro seg hseg
  have hm : seg ∈ stack := by
    have heq := slashSegs_of_join stack hg
    exact heq ▸ hseg
  exact ⟨(hg seg hm).2.1, (hg seg hm).2.2.1⟩

/-- The non-empty split segments of any string are slash-free and
non-empty. -/
theorem segs_clean (l : List Char) :
    ∀ s ∈ (jsSplit '/' l).filter (fun s => s ≠ []), s ≠ [] ∧ '/' ∉ s := by
  intro s hs
  rw [List.mem_filter] at hs
  exact ⟨by simpa using hs.2, sep_not_mem_jsSplit '/' l s hs.1⟩

/-- **C8.** `normalizePath` is idempotent. -/
theorem claim_C8_normalize_idempotent (p : String) :
    normalizePath (normalizePath p) = normalizePath p := by
  have hgS : ∀ s ∈ normFold [] ((jsSplit '/' p.data).filter (fun s => s ≠ [])), goodSeg s :=
    goodSeg_normFold _ [] (by simp) (segs_clean p.data)
  show (⟨'/' :: jsJoin '/' (normFold []
      ((jsSplit '/' ('/' :: jsJoin '/' (normFold []
        ((jsSplit '/' p.data).filter (fun s => s ≠ []))))).filter (fun s => s ≠ [])))⟩ : String)
    = normalizePath p
  rw [slashSegs_of_join _ hgS,
    normFold_of_clean _ [] (fun s hs => ⟨(hgS s hs).2.1, (hgS s hs).2.2.1⟩)]
  rfl

/-- **C4 counterexample.** The claim fails as stated: for the relative path
`"x"` against the cwd `"/.."`, `resolvePath` copies the cwd's `..` segment
into its output verbatim, producing `"/../x"`. -/
theorem claim_C4_refuted :
    resolvePath "x" "/.." = "/../x" ∧ ¬ noDotSegs (resolvePath "x" "/..") := by
  constructor
  · rfl
  · decide

/-- **C4 (amended).** For every path `p` and every cwd `c` whose non-empty
segments contain no `..` and no `.` (every cwd the resolver itself
produces is of this shape), `resolvePath p c` starts with `/` and contains
no `..` or `.` segment; a `..` popping an empty stack is clamped, and the
root reassembles to exactly `/`. -/
theorem claim_C4_amended (p c : String) (hc : noDotSegs c) :
    (resolvePath p c).data.take 1 = ['/']
    ∧ noDotSegs (resolvePath p c)
    ∧ resolvePath "/.." c = "/"
    ∧ normalizePath "/" = "/" := by
  refine ⟨?_, ?_, rfl, rfl⟩
  · by_cases hp : p.data.take 1 = ['/']
    · show (if p.data.take 1 = ['/'] then normalizePath p else _).data.take 1 = ['/']
      rw [if_pos hp]
      rfl
    · show (if p.data.take 1 = ['/'] then normalizePath p else _).data.take 1 = ['/']
      rw [if_neg hp]
      rfl
  · by_cases hp : p.data.take 1 = ['/']
    · have h1 : resolvePath p c = normalizePath p := by
        show (if p.data.take 1 = ['/'] then normalizePath p else _) = normalizePath p
        rw [if_pos hp]
      rw [h1]
      exact noDotSegs_of_good _
        (goodSeg_normFold _ [] (by simp) (segs_clean p.data))
    · have h1 : resolvePath p c
          = ⟨'/' :: jsJoin '/' (resFold
              ((jsSplit '/' c.data).filter (fun s => s ≠ []))
              (jsSplit '/' p.data))⟩ := by
        show (if p.data.take 1 = ['/'] then normalizePath p else _) = _
        rw [if_neg hp]
      rw [h1]
      refine noDotSegs_of_good _ (goodSeg_resFold _ _ ?_ ?_)
      · intro s hs
        obtain ⟨hne, hslash⟩ := segs_clean c.data s hs
        obtain ⟨hdot, hdotdot⟩ := hc s hs
        exact ⟨hne, hdot, hdotdot, hslash⟩
      · intro s hs
        exact sep_not_mem_jsSplit '/' p.data s hs

/-- Witness for the amended C4 at a concrete relative path and clean cwd. -/
theorem claim_C4_amended_witness :
    (resolvePath "a/../b" "/home/user").data.take 1 = ['/']
    ∧ noDotSegs (resolvePath "a/../b" "/home/user")
    ∧ resolvePath "/.." "/home/user" = "/"
    ∧ normalizePath "/" = "/" :=
  claim_C4_amended "a/../b" "/home/user" (by decide)

/-- Constructor/projection computation for verdicts. -/
theorem verdict_correct_mk (b : Bool) : (⟨b⟩ : Verdict).correct = b := rfl

/-- The JS guard `task.checkArgs && task.checkArgs.length > 0` holds exactly
when the defaulted argument list is non-empty. -/
theorem truthyArgs_iff (o : Option (List String)) :
    truthyArgs o = true ↔ o.getD [] ≠ [] := by
  cases o with
  | none => simp [truthyArgs]
  | some l => cases l <;> simp [truthyArgs]

/-- The positional loop agrees with list equality once the lengths agree. -/
theorem eqFrom_eq_iff : ∀ (xs ys : List String), xs.length = ys.length →
    (eqFrom xs ys = true ↔ xs = ys) := by
  intro xs
  induction xs with
  | nil =>
    intro ys h
    cases ys with
    | nil => simp [eqFrom]
    | cons y ys => simp at h
  | cons x xs ih =>
    intro ys h
    cases ys with
    | nil => simp at h
    | cons y ys =>
      simp only [eqFrom]
      by_cases hxy : x = y
      · subst hxy
        rw [if_neg (not_not_intro rfl), ih ys (by simpa using h)]
        simp
      · rw [if_pos hxy]
        simp [hxy]

/-- After the interaction and flag branches are ruled out and a truthy
`checkCommand` is present, `validateAnswer` is exactly the command branch
over the tokenized answer. -/
theorem validate_command_eq (task : TaskDef) (answer : String)
    (hct : truthyS task.checkCommand = true)
    (hni : ¬ (task.checkType = some "interaction" ∧ truthyS task.interactionTarget = true))
    (hnf : ¬ (task.checkType = some "flag" ∧ truthyS task.solutionValue = true)) :
    validateAnswer task answer
      = (match parseCommandArgs answer with
         | [] => ⟨false⟩
         | c0 :: args =>
           if c0 ≠ task.checkCommand.getD "" then ⟨false⟩
           else if truthyArgs task.checkArgs = true then
             if (args.map stripTrailSlash).length
                 ≠ ((task.checkArgs.getD []).map stripTrailSlash).length then ⟨false⟩
             else ⟨eqFrom (args.map stripTrailSlash)
                     ((task.checkArgs.getD []).map stripTrailSlash)⟩
           else if args.length > 0 then ⟨false⟩
           else ⟨true⟩) := by
  simp only [validateAnswer]
  rw [if_neg hni, if_neg hnf, if_pos hct]

/-- Command branch on an empty token sequence: incorrect. -/
theorem validate_command_nil (task : TaskDef) (answer : String)
    (hct : truthyS task.checkCommand = true)
    (hni : ¬ (task.checkType = some "interaction" ∧ truthyS task.interactionTarget = true))
    (hnf : ¬ (task.checkType = some "flag" ∧ truthyS task.solutionValue = true))
    (hp : parseCommandArgs answer = []) :
    validateAnswer task answer = ⟨false⟩ := by
  rw [validate_command_eq task answer hct hni hnf, hp]

/-- Command branch on a non-empty token sequence, spelled out. -/
theorem validate_command_cons (task : TaskDef) (answer c0 : String) (args : List String)
    (hct : truthyS task.checkCommand = true)
    (hni : ¬ (task.checkType = some "interaction" ∧ truthyS task.interactionTarget = true))
    (hnf : ¬ (task.checkType = some "flag" ∧ truthyS task.solutionValue = true))
    (hp : parseCommandArgs answer = c0 :: args) :
    validateAnswer task answer
      = (if c0 ≠ task.checkCommand.getD "" then ⟨false⟩
         else if truthyArgs task.checkArgs = true then
           if (args.map stripTrailSlash).length
               ≠ ((task.checkArgs.getD []).map stripTrailSlash).length then ⟨false⟩
           else ⟨eqFrom (args.map stripTrailSlash)
                   ((task.checkArgs.getD []).map stripTrailSlash)⟩
         else if args.length > 0 then ⟨false⟩
         else ⟨true⟩) := by
  rw [validate_command_eq task answer hct hni hnf, hp]

/-- **C1.** For a command task (interaction and flag branches ruled out,
`checkCommand` a non-empty string): with non-empty `checkArgs` the answer is
correct iff its first token is exactly the command and the remaining tokens
equal `checkArgs` position by position after stripping one trailing slash on
both sides; with empty or absent `checkArgs` the answer is correct iff it
tokenizes to exactly the bare command. -/
theorem claim_C1_command_check (task : TaskDef) (cmd : String) (answer : String)
    (hc : task.checkCommand = some cmd) (hcne : cmd ≠ "")
    (hni : ¬ (task.checkType = some "interaction" ∧ truthyS task.interactionTarget = true))
    (hnf : ¬ (task.checkType = some "flag" ∧ truthyS task.solutionValue = true)) :
    ((task.checkArgs.getD [] ≠ []) →
      ((validateAnswer task answer).correct = true ↔
        ((parseCommandArgs answer).head? = some cmd
         ∧ (parseCommandArgs answer).tail.map stripTrailSlash
             = (task.checkArgs.getD []).map stripTrailSlash)))
    ∧ ((task.checkArgs.getD [] = []) →
      ((validateAnswer task answer).correct = true ↔ parseCommandArgs answer = [cmd])) := by
  have hct : truthyS task.checkCommand = true := by
    rw [hc]
    simpa [truthyS] using hcne
  have hgd : task.checkCommand.getD "" = cmd := by
    rw [hc]
    rfl
  rcases hp : parseCommandArgs answer with _ | ⟨c0, args⟩
  · rw [validate_command_nil task answer hct hni hnf hp]
    constructor
    · intro _
      simp [verdict_correct_mk]
    · intro _
      simp [verdict_correct_mk]
  · rw [validate_command_cons task answer c0 args hct hni hnf hp, hgd]
    by_cases hc0 : c0 = cmd
    · subst hc0
      rw [if_neg (not_not_intro rfl)]
      constructor
      · intro hargs
        rw [if_pos ((truthyArgs_iff task.checkArgs).mpr hargs)]
        by_cases hlen : (args.map stripTrailSlash).length
            = ((task.checkArgs.getD []).map stripTrailSlash).length
        · rw [if_neg (not_not_intro hlen), verdict_correct_mk, eqFrom_eq_iff _ _ hlen]
          simp
        · rw [if_pos hlen, verdict_correct_mk]
          simp only [List.head?_cons, List.tail_cons]
          constructor
          · intro h
            exact absurd h (by decide)
          · rintro ⟨-, h2⟩
            exact absurd (congrArg List.length h2) hlen
      · intro hargs
        have hta : ¬ (truthyArgs task.checkArgs = true) := by
          rw [truthyArgs_iff, hargs]
          exact not_not_intro rfl
        rw [if_neg hta]
        cases args with
        | nil =>
          rw [if_neg (by simp), verdict_correct_mk]
          simp
        | cons a args2 =>
          rw [if_pos (by simp), verdict_correct_mk]
          simp
    · rw [if_pos hc0]
      constructor
      · intro _
        rw [verdict_correct_mk]
        simp only [List.head?_cons]
        constructor
        · intro h
          exact absurd h (by decide)
        · rintro ⟨h1, -⟩
          exact (hc0 (by simpa using h1)).elim
      · intro _
        rw [verdict_correct_mk]
        constructor
        · intro h
          exact absurd h (by decide)
        · intro h
          have h2 : c0 = cmd ∧ args = [] := by simpa using h
          exact (hc0 h2.1).elim

/-- Witness for C1: the `mount` task with `checkArgs ["/mnt/evidence"]`
accepts `mount /mnt/evidence/` and `mount /mnt/evidence` and rejects
`mount /mnt/evidence extra`. -/
theorem claim_C1_command_check_witness :
    (validateAnswer mountTask "mount /mnt/evidence/").correct = true
    ∧ (validateAnswer mountTask "mount /mnt/evidence").correct = true
    ∧ (validateAnswer mountTask "mount /mnt/evidence extra").correct = false := by
  refine ⟨?_, ?_, ?_⟩
  · exact ((claim_C1_command_check mountTask "mount" "mount /mnt/evidence/"
      rfl (by decide) (by decide) (by decide)).1 (by decide)).mpr (by decide)
  · exact ((claim_C1_command_check mountTask "mount" "mount /mnt/evidence"
      rfl (by decide) (by decide) (by decide)).1 (by decide)).mpr (by decide)
  · have h := (claim_C1_command_check mountTask "mount" "mount /mnt/evidence extra"
      rfl (by decide) (by decide) (by decide)).1 (by decide)
    have h2 : ¬ ((validateAnswer mountTask "mount /mnt/evidence extra").correct = true) := by
      rw [h]
      decide
    exact Bool.not_eq_true _ ▸ h2

/-- Writing a child and reading the same name back gives the new node. -/
theorem lookupChild_childSet_self :
    ∀ (cs : List (String × Node)) (k : String) (n : Node),
      lookupChild (childSet cs k n) k = some n := by
  intro cs k n
  induction cs with
  | nil => simp [childSet, lookupChild]
  | cons e cs ih =>
    obtain ⟨k1, n1⟩ := e
    by_cases h : k1 = k
    · subst h
      simp [childSet, lookupChild]
    · simp only [childSet]
      rw [if_neg h]
      simp only [lookupChild]
      rw [if_neg h]
      exact ih

/-- Writing a child leaves every other name unchanged. -/
theorem lookupChild_childSet_other :
    ∀ (cs : List (String × Node)) (k k2 : String) (n : Node), k2 ≠ k →
      lookupChild (childSet cs k n) k2 = lookupChild cs k2 := by
  intro cs k k2 n hne
  induction cs with
  | nil =>
    simp only [childSet, lookupChild]
    rw [if_neg (fun h => hne h.symm)]
  | cons e cs ih =>
    obtain ⟨k1, n1⟩ := e
    by_cases h : k1 = k
    · subst h
      simp only [childSet]
      rw [if_pos trivial]
      simp only [lookupChild]
      rw [if_neg (fun hh => hne hh.symm), if_neg (fun hh => hne hh.symm)]
    · simp only [childSet]
      rw [if_neg h]
      simp only [lookupChild]
      by_cases h2 : k1 = k2
      · rw [if_pos h2, if_pos h2]
      · rw [if_neg h2, if_neg h2, ih]

/-- The file-insertion fold leaves names outside the content keys
unchanged. -/
theorem lookup_filesFold_not_mem :
    ∀ (c : List (String × String)) (cs : List (String × Node)) (k : String),
      k ∉ c.map Prod.fst →
      lookupChild (c.foldl (fun acc kv => childSet acc kv.1 (fileNode kv.2)) cs) k
        = lookupChild cs k := by
  intro c
  induction c with
  | nil => intro cs k _; rfl
  | cons kv c ih =>
    intro cs k hk
    obtain ⟨k1, v1⟩ := kv
    have hk1 : k ≠ k1 := by
      intro h
      exact hk (by rw [h]; exact List.mem_cons_self _ _)
    simp only [List.foldl_cons]
    rw [ih _ k (fun h => hk (List.mem_cons_of_mem _ h)),
      lookupChild_childSet_other cs k1 k (fileNode v1) hk1]

/-- With duplicate-free keys, the file-insertion fold stores every content
entry as a file child. -/
theorem lookup_filesFold_mem :
    ∀ (c : List (String × String)) (cs : List (String × Node)) (k v : String),
      (c.map Prod.fst).Nodup → (k, v) ∈ c →
      lookupChild (c.foldl (fun acc kv => childSet acc kv.1 (fileNode kv.2)) cs) k
        = some (fileNode v) := by
  intro c
  induction c with
  | nil =>
    intro cs k v _ hm
    simp at hm
  | cons kv c ih =>
    intro cs k v hnd hm
    obtain ⟨k1, v1⟩ := kv
    have hnd2 : (k1 :: c.map Prod.fst).Nodup := by simpa using hnd
    simp only [List.foldl_cons]
    rcases List.mem_cons.mp hm with h | h
    · have hk : k = k1 := (Prod.ext_iff.mp h).1
      have hv : v = v1 := (Prod.ext_iff.mp h).2
      subst hk
      subst hv
      rw [lookup_filesFold_not_mem c _ k (List.nodup_cons.mp hnd2).1,
        lookupChild_childSet_self]
    · exact ih _ k v (List.nodup_cons.mp hnd2).2 h

/-- Walking any non-empty path from a fresh empty directory finds nothing. -/
theorem getNodeParts_emptyDir :
    ∀ (xs : List String), xs ≠ [] → getNodeParts xs emptyDir = none := by
  intro xs h
  cases xs with
  | nil => exact absurd rfl h
  | cons x xs => rfl

/-- A fresh empty directory satisfies the children guard along any path. -/
theorem childrenOkAt_emptyDir (ps : List String) : childrenOkAt ps emptyDir = true := by
  cases ps with
  | nil => rfl
  | cons p ps => rfl

/-- Unfolding `getNodeParts` through an existing child. -/
theorem getNodeParts_cons_found (p : String) (ps : List String) (ty : String)
    (cs : List (String × Node)) (co : Option String) (ch : Node)
    (h : lookupChild cs p = some ch) :
    getNodeParts (p :: ps) (Node.mk ty (some cs) co) = getNodeParts ps ch := by
  simp only [getNodeParts, h]

/-- `getNodeParts` through a missing child is absent. -/
theorem getNodeParts_cons_missing (p : String) (ps : List String) (ty : String)
    (cs : List (String × Node)) (co : Option String)
    (h : lookupChild cs p = none) :
    getNodeParts (p :: ps) (Node.mk ty (some cs) co) = none := by
  simp only [getNodeParts, h]

/-- `getNodeParts` through a childless node is absent. -/
theorem getNodeParts_cons_nochild (p : String) (ps : List String) (ty : String)
    (co : Option String) :
    getNodeParts (p :: ps) (Node.mk ty none co) = none := rfl

/-- Unfolding `mountParts` one level down an existing child. -/
theorem mountParts_cons_found (p : String) (ps : List String) (ty : String)
    (cs : List (String × Node)) (co : Option String) (ch : Node)
    (c : List (String × String)) (h : lookupChild cs p = some ch) :
    mountParts (p :: ps) (Node.mk ty (some cs) co) c
      = Node.mk ty (some (childSet cs p (mountParts ps ch c))) co := by
  simp only [mountParts, Option.getD, h]

/-- Unfolding `mountParts` one level down a missing child (a fresh empty
directory is created). -/
theorem mountParts_cons_missing (p : String) (ps : List String) (ty : String)
    (cs : List (String × Node)) (co : Option String)
    (c : List (String × String)) (h : lookupChild cs p = none) :
    mountParts (p :: ps) (Node.mk ty (some cs) co) c
      = Node.mk ty (some (childSet cs p (mountParts ps emptyDir c))) co := by
  simp only [mountParts, Option.getD, h]

/-- Unfolding `mountParts` one level down a childless node (`children` is
created first, then the missing child). -/
theorem mountParts_cons_nochild (p : String) (ps : List String) (ty : String)
    (co : Option String) (c : List (String × String)) :
    mountParts (p :: ps) (Node.mk ty none co) c
      = Node.mk ty (some (childSet [] p (mountParts ps emptyDir c))) co := rfl

/-- The children guard transfers down an existing child. -/
theorem childrenOkAt_cons_found (p : String) (ps : List String) (ty : String)
    (cs : List (String × Node)) (co : Option String) (ch : Node)
    (h : lookupChild cs p = some ch) :
    childrenOkAt (p :: ps) (Node.mk ty (some cs) co) = childrenOkAt ps ch := by
  simp only [childrenOkAt, getNodeParts, h]

/-- Walking a single segment is exactly a child lookup. -/
theorem getNodeParts_single (k : String) (ty : String) (cs : List (String × Node))
    (co : Option String) :
    getNodeParts [k] (Node.mk ty (some cs) co) = lookupChild cs k := by
  cases h : lookupChild cs k with
  | none => simp only [getNodeParts, h]
  | some ch => simp only [getNodeParts, h]

/-- Core mount specification over already-split path segments: under the
children guard at the mount path, every content entry lands as a file child
under the final directory, every other name (at the final directory and
anywhere else off the new files) reads exactly as before, and along the
mount path existing nodes keep their type and content while missing ones are
created as directories. -/
theorem mountParts_spec :
    ∀ (pp : List String) (t : Node) (c : List (String × String)),
      (c.map Prod.fst).Nodup →
      childrenOkAt pp t = true →
      ((∀ k v, (k, v) ∈ c →
          getNodeParts (pp ++ [k]) (mountParts pp t c) = some (fileNode v))
       ∧ (∀ s : String, s ∉ c.map Prod.fst →
          getNodeParts (pp ++ [s]) (mountParts pp t c) = getNodeParts (pp ++ [s]) t)
       ∧ (∀ q r : List String, q ++ r = pp →
          ∃ n2, getNodeParts q (mountParts pp t c) = some n2
            ∧ n2.children.isSome = true
            ∧ (match getNodeParts q t with
               | some n1 => n2.ty = n1.ty ∧ n2.content = n1.content
               | none => n2.ty = "dir" ∧ n2.content = none))) := by
  intro pp
  induction pp with
  | nil =>
    intro t c hnd hok
    obtain ⟨ty, och, co⟩ := t
    cases och with
    | none => exact Bool.noConfusion hok
    | some cs =>
      have haf : mountParts [] (Node.mk ty (some cs) co) c
          = Node.mk ty
              (some (c.foldl (fun acc kv => childSet acc kv.1 (fileNode kv.2)) cs)) co := rfl
      refine ⟨?_, ?_, ?_⟩
      · intro k v hm
        rw [haf, List.nil_append, getNodeParts_single]
        exact lookup_filesFold_mem c cs k v hnd hm
      · intro s hs
        rw [haf, List.nil_append, getNodeParts_single, getNodeParts_single]
        exact lookup_filesFold_not_mem c cs s hs
      · intro q r hqr
        obtain ⟨hq, -⟩ := List.append_eq_nil.mp hqr
        subst hq
        exact ⟨addFiles (Node.mk ty (some cs) co) c, rfl, rfl, rfl, rfl⟩
  | cons p ps ih =>
    intro t c hnd hok
    obtain ⟨ty, och, co⟩ := t
    cases och with
    | none =>
      have hmp : mountParts (p :: ps) (Node.mk ty none co) c
          = Node.mk ty (some (childSet [] p (mountParts ps emptyDir c))) co :=
        mountParts_cons_nochild p ps ty co c
      obtain ⟨ih1, ih2, ih3⟩ := ih emptyDir c hnd (childrenOkAt_emptyDir ps)
      refine ⟨?_, ?_, ?_⟩
      · intro k v hm
        rw [hmp, List.cons_append,
          getNodeParts_cons_found p (ps ++ [k]) ty _ co _ (lookupChild_childSet_self [] p _)]
        exact ih1 k v hm
      · intro s hs
        rw [hmp, List.cons_append,
          getNodeParts_cons_found p (ps ++ [s]) ty _ co _ (lookupChild_childSet_self [] p _),
          ih2 s hs, getNodeParts_emptyDir (ps ++ [s]) (by simp),
          getNodeParts_cons_nochild]
      · intro q r hqr
        cases q with
        | nil =>
          exact ⟨Node.mk ty (some (childSet [] p (mountParts ps emptyDir c))) co,
            by rw [hmp]; rfl, rfl, rfl, rfl⟩
        | cons qh q2 =>
          rw [List.cons_append] at hqr
          injection hqr with hqh hq2
          obtain ⟨n2, h1, h2, h3⟩ := ih3 q2 r hq2
          refine ⟨n2, ?_, h2, ?_⟩
          · rw [hqh, hmp,
              getNodeParts_cons_found p q2 ty _ co _ (lookupChild_childSet_self [] p _)]
            exact h1
          · rw [hqh, getNodeParts_cons_nochild]
            cases q2 with
            | nil => exact h3
            | cons q2h q2t =>
              rw [getNodeParts_emptyDir (q2h :: q2t) (by simp)] at h3
              exact h3
    | some cs =>
      cases hlk : lookupChild cs p with
      | none =>
        have hmp : mountParts (p :: ps) (Node.mk ty (some cs) co) c
            = Node.mk ty (some (childSet cs p (mountParts ps emptyDir c))) co :=
          mountParts_cons_missing p ps ty cs co c hlk
        obtain ⟨ih1, ih2, ih3⟩ := ih emptyDir c hnd (childrenOkAt_emptyDir ps)
        refine ⟨?_, ?_, ?_⟩
        · intro k v hm
          rw [hmp, List.cons_append,
            getNodeParts_cons_found p (ps ++ [k]) ty _ co _ (lookupChild_childSet_self cs p _)]
          exact ih1 k v hm
        · intro s hs
          rw [hmp, List.cons_append,
            getNodeParts_cons_found p (ps ++ [s]) ty _ co _ (lookupChild_childSet_self cs p _),
            ih2 s hs, getNodeParts_emptyDir (ps ++ [s]) (by simp),
            getNodeParts_cons_missing p (ps ++ [s]) ty cs co hlk]
        · intro q r hqr
          cases q with
          | nil =>
            exact ⟨Node.mk ty (some (childSet cs p (mountParts ps emptyDir c))) co,
              by rw [hmp]; rfl, rfl, rfl, rfl⟩
          | cons qh q2 =>
            rw [List.cons_append] at hqr
            injection hqr with hqh hq2
            obtain ⟨n2, h1, h2, h3⟩ := ih3 q2 r hq2
            refine ⟨n2, ?_, h2, ?_⟩
            · rw [hqh, hmp,
                getNodeParts_cons_found p q2 ty _ co _ (lookupChild_childSet_self cs p _)]
              exact h1
            · rw [hqh, getNodeParts_cons_missing p q2 ty cs co hlk]
              cases q2 with
              | nil => exact h3
              | cons q2h q2t =>
                rw [getNodeParts_emptyDir (q2h :: q2t) (by simp)] at h3
                exact h3
      | some ch =>
        have hmp : mountParts (p :: ps) (Node.mk ty (some cs) co) c
            = Node.mk ty (some (childSet cs p (mountParts ps ch c))) co :=
          mountParts_cons_found p ps ty cs co ch c hlk
        rw [childrenOkAt_cons_found p ps ty cs co ch hlk] at hok
        obtain ⟨ih1, ih2, ih3⟩ := ih ch c hnd hok
        refine ⟨?_, ?_, ?_⟩
        · intro k v hm
          rw [hmp, List.cons_append,
            getNodeParts_cons_found p (ps ++ [k]) ty _ co _ (lookupChild_childSet_self cs p _)]
          exact ih1 k v hm
        · intro s hs
          rw [hmp, List.cons_append,
            getNodeParts_cons_found p (ps ++ [s]) ty _ co _ (lookupChild_childSet_self cs p _),
            ih2 s hs, getNodeParts_cons_found p (ps ++ [s]) ty cs co ch hlk]
        · intro q r hqr
          cases q with
          | nil =>
            exact ⟨Node.mk ty (some (childSet cs p (mountParts ps ch c))) co,
              by rw [hmp]; rfl, rfl, rfl, rfl⟩
          | cons qh q2 =>
            rw [List.cons_append] at hqr
            injection hqr with hqh hq2
            obtain ⟨n2, h1, h2, h3⟩ := ih3 q2 r hq2
            refine ⟨n2, ?_, h2, ?_⟩
            · rw [hqh, hmp,
                getNodeParts_cons_found p q2 ty _ co _ (lookupChild_childSet_self cs p _)]
              exact h1
            · rw [hqh, getNodeParts_cons_found p q2 ty cs co ch hlk]
              exact h3

/-- **C2 counterexample.** The claim fails for a tree with a childless file
node sitting at the mount path: mounting `{f:"y"}` at `/a` on a tree whose
`a` is a file inserts nothing at all (the JS guard
`if (content && current.children)` skips the loop), so the promised file
child `f` is absent. -/
theorem claim_C2_mount_refuted :
    ¬ (getNodeParts (jsSegsStr "/a" ++ ["f"]) (mountContent fileBlockTree "/a" [("f", "y")])
        = some (fileNode "y")) := by
  intro h
  have h0 : getNodeParts (jsSegsStr "/a" ++ ["f"]) (mountContent fileBlockTree "/a" [("f", "y")])
      = none := rfl
  rw [h0] at h
  exact Option.noConfusion h

/-- **C2 (amended).** Provided the node already sitting at the mount path,
if any, carries a children map (in particular whenever it is a directory;
a childless file at the mount path makes the source skip the insertion),
`mountContent` inserts or overwrites a file child for every entry of the
(duplicate-free) content mapping directly under the final directory, reads
of any other name — under the final directory or anywhere below the mount
path — are exactly as before mounting (so mounting never deletes
pre-existing siblings), and along the mount path existing nodes are reused
with their type and content intact while missing ones are created as
directories with children. -/
theorem claim_C2_mount_amended (t : Node) (mountPath : String)
    (c : List (String × String))
    (hnd : (c.map Prod.fst).Nodup)
    (hok : childrenOkAt (jsSegsStr mountPath) t = true) :
    (∀ k v, (k, v) ∈ c →
      getNodeParts (jsSegsStr mountPath ++ [k]) (mountContent t mountPath c)
        = some (fileNode v))
    ∧ (∀ s : String, s ∉ c.map Prod.fst →
      getNodeParts (jsSegsStr mountPath ++ [s]) (mountContent t mountPath c)
        = getNodeParts (jsSegsStr mountPath ++ [s]) t)
    ∧ (∀ q r : List String, q ++ r = jsSegsStr mountPath →
      ∃ n2, getNodeParts q (mountContent t mountPath c) = some n2
        ∧ n2.children.isSome = true
        ∧ (match getNodeParts q t with
           | some n1 => n2.ty = n1.ty ∧ n2.content = n1.content
           | none => n2.ty = "dir" ∧ n2.content = none)) :=
  mountParts_spec (jsSegsStr mountPath) t c hnd hok

/-- Witness for the amended C2: mounting `disk.img` at `/mnt/evidence` on a
tree with an existing `mnt` directory creates the file and leaves the
unrelated sibling `keep.txt` untouched. -/
theorem claim_C2_mount_amended_witness :
    getNodeParts (jsSegsStr "/mnt/evidence" ++ ["disk.img"])
        (mountContent mountDemoTree "/mnt/evidence" [("disk.img", "data")])
      = some (fileNode "data")
    ∧ getNodeParts (jsSegsStr "/mnt/evidence" ++ ["keep.txt"])
        (mountContent mountDemoTree "/mnt/evidence" [("disk.img", "data")])
      = getNodeParts (jsSegsStr "/mnt/evidence" ++ ["keep.txt"]) mountDemoTree := by
  have h := claim_C2_mount_amended mountDemoTree "/mnt/evidence" [("disk.img", "data")]
    (by decide) rfl
  exact ⟨h.1 "disk.img" "data" (List.mem_singleton.mpr rfl), h.2.1 "keep.txt" (by decide)⟩
